import Mathlib

/-!
Verification of the CST435-Assignment2 image-filter pipeline.

The repository holds two C++ mains implementing the same five image
filters (grayscale, Gaussian blur, sharpen, Sobel edge, brightness):
`src/src_openmp/main.cpp` (OpenMP `parallel for` loops) and
`src/src_threads/main.cpp` (manual row partitioning via `runParallel`
plus `std::thread`).

Pixel buffers are shallowly embedded as functions `ℕ → ℕ` from the flat
sample index `(y*width + x)*channels + c` to the 8-bit sample value.
A filter stage maps the input buffer and the previous contents of the
output buffer to the new output buffer; samples the stage does not
write keep the previous contents, exactly like the C code, which only
stores to the indices its loops visit.

Floating-point fidelity.  All float32 arithmetic in the convolution
filters is exact: blur weights are dyadic (k/16) and every product and
partial sum is a multiple of 1/16 bounded by 255*4, far below 2^24, so
binary32 represents each intermediate exactly; sharpen and Sobel use
integer weights with the same bound.  The truncated `sqrt` of an exact
integer at most 2*1020^2 equals the integer square root (the distance
from sqrt(n) to the nearest distinct integer exceeds the rounding error
of a correctly rounded sqrt on this range).  Hence the integer models
below are exact for blur, sharpen and edge.  The grayscale luminance
expression `0.299f*r + 0.587f*g + 0.114f*b` is NOT exact in binary32,
so it is modelled with `fl`, an exact rational implementation of
round-to-nearest-even at 24 significant bits, applied after every
product and sum in source order.
-/

/-- Flat sample index of pixel (x, y) channel c, as used by both mains:
`(y * width + x) * channels + c`. -/
def pixIdx (width channels x y c : ℕ) : ℕ := (y * width + x) * channels + c

/-- Row that the flat index j belongs to (pixel index j / channels, row
pixel / width). -/
def rowOf (width channels j : ℕ) : ℕ := j / channels / width

/-- One worker range of src_threads runParallel (main.cpp lines 30-43):
`rowsPerThread = height / numThreads` (integer division), worker i gets
`[i*rowsPerThread, (i+1)*rowsPerThread)` and the last worker gets
`[(numThreads-1)*rowsPerThread, height)`. -/
def rangeFor (numThreads height i : ℕ) : ℕ × ℕ :=
  (i * (height / numThreads),
   if i = numThreads - 1 then height else (i + 1) * (height / numThreads))

/-- The list of `[startRow, endRow)` ranges that runParallel spawns, one
per worker `i < numThreads`. -/
def partitionRanges (numThreads height : ℕ) : List (ℕ × ℕ) :=
  (List.range numThreads).map (rangeFor numThreads height)

/-- Worker i contains row y. -/
def inRange (numThreads height i y : ℕ) : Prop :=
  (rangeFor numThreads height i).1 ≤ y ∧ y < (rangeFor numThreads height i).2

/-- Effect of one worker on the output buffer: every flat index j whose
row lies in `[startRow, endRow)` and that satisfies the stage write
condition receives the stage value; all other samples keep the previous
contents of the output buffer. -/
def writeRows (width channels : ℕ) (cond : ℕ → Bool) (val : ℕ → ℕ)
    (startRow endRow : ℕ) (out : ℕ → ℕ) : ℕ → ℕ :=
  fun j =>
    if startRow ≤ rowOf width channels j ∧ rowOf width channels j < endRow ∧ cond j = true
    then val j else out j

/-- src_threads runParallel: spawn one worker per partition range and
join them all.  The workers write disjoint rows of the output and only
read the input, so the concurrent execution equals this left fold. -/
def runParallel (width channels : ℕ) (cond : ℕ → Bool) (val : ℕ → ℕ)
    (numThreads height : ℕ) (out : ℕ → ℕ) : ℕ → ℕ :=
  (partitionRanges numThreads height).foldl
    (fun acc r => writeRows width channels cond val r.1 r.2 acc) out

/-- Binary digit count, structural in a fuel argument so the kernel can
evaluate it; 64 bits of fuel covers every value of the grayscale
pipeline (all below 2^40). -/
def bitlenAux : ℕ → ℕ → ℕ
  | 0, _ => 0
  | fuel + 1, n => if n = 0 then 0 else bitlenAux fuel (n / 2) + 1

/-- Number of binary digits of n (0 for 0). -/
def bitlen (n : ℕ) : ℕ := bitlenAux 64 n

/-- Exact model of rounding a nonnegative dyadic value n / 2^e to a
binary32 float: keep 24 significant bits, round to nearest, ties to
even (the IEEE-754 default).  Values with at most 24 mantissa bits are
exact.  Faithful on the grayscale range (all values below 2^24 with
e below 28); validated exhaustively against binary32 arithmetic for
every 8-bit r, g, b input of the luminance chain. -/
def flD : ℕ × ℕ → ℕ × ℕ := fun p =>
  if p.1 = 0 then (0, 0)
  else
    let L := bitlen p.1 - 1
    if L ≤ 23 then p
    else
      let s := L - 23
      let q := p.1 / 2 ^ s
      let low := p.1 % 2 ^ s
      let m :=
        if low < 2 ^ (s - 1) then q
        else if 2 ^ (s - 1) < low then q + 1
        else if q % 2 = 0 then q else q + 1
      (m, p.2 - s)

/-- Sum of two nonnegative dyadic values, exponents aligned. -/
def addD (a b : ℕ × ℕ) : ℕ × ℕ :=
  (a.1 * 2 ^ (max a.2 b.2 - a.2) + b.1 * 2 ^ (max a.2 b.2 - b.2), max a.2 b.2)

/-- Truncation toward zero of a nonnegative dyadic value, the C cast of
a nonnegative float to an integer type. -/
def truncD (a : ℕ × ℕ) : ℕ := a.1 / 2 ^ a.2

/-- The gray sample both mains store:
`(unsigned char)(0.299f * r + 0.587f * g + 0.114f * b)` (src_openmp
line 45, src_threads line 55) — a truncation, not a rounding, of the
float expression.  The binary32 constants are exact: 0.299f is
10032775/2^25, 0.587f is 9848226/2^24, 0.114f is 15300821/2^27; each
product and each left-associated sum is rounded to binary32 by flD in
source order. -/
def grayPix (r g b : ℕ) : ℕ :=
  truncD (flD (addD (flD (addD (flD (10032775 * r, 25)) (flD (9848226 * g, 24))))
    (flD (15300821 * b, 27))))

/-- Per-index value written by the grayscale stage: channels 0..2 get
the gray value of the pixel the index belongs to, the alpha channel
copies the input. -/
def grayVal (input : ℕ → ℕ) (channels : ℕ) (j : ℕ) : ℕ :=
  if j % channels ≤ 2 then
    grayPix (input ((j / channels) * channels))
            (input ((j / channels) * channels + 1))
            (input ((j / channels) * channels + 2))
  else input j

/-- Gaussian blur numerators over denominator 16
(kernel {{1,2,1},{2,4,2},{1,2,1}} / 16). -/
def blurK : ℕ → ℕ → ℤ := fun i j =>
  match i, j with
  | 0, 0 => 1 | 0, 1 => 2 | 0, 2 => 1
  | 1, 0 => 2 | 1, 1 => 4 | 1, 2 => 2
  | 2, 0 => 1 | 2, 1 => 2 | 2, 2 => 1
  | _, _ => 0

/-- Sharpen kernel {{0,-1,0},{-1,5,-1},{0,-1,0}} over denominator 1. -/
def sharpenK : ℕ → ℕ → ℤ := fun i j =>
  match i, j with
  | 0, 1 => -1
  | 1, 0 => -1 | 1, 1 => 5 | 1, 2 => -1
  | 2, 1 => -1
  | _, _ => 0

/-- Sobel horizontal kernel {{-1,0,1},{-2,0,2},{-1,0,1}}. -/
def sobelGx : ℕ → ℕ → ℤ := fun i j =>
  match i, j with
  | 0, 0 => -1 | 0, 2 => 1
  | 1, 0 => -2 | 1, 2 => 2
  | 2, 0 => -1 | 2, 2 => 1
  | _, _ => 0

/-- Sobel vertical kernel {{-1,-2,-1},{0,0,0},{1,2,1}}. -/
def sobelGy : ℕ → ℕ → ℤ := fun i j =>
  match i, j with
  | 0, 0 => -1 | 0, 1 => -2 | 0, 2 => -1
  | 2, 0 => 1 | 2, 1 => 2 | 2, 2 => 1
  | _, _ => 0

/-- Input sample at pixel (x, y) channel c, as an integer. -/
def sampleAt (input : ℕ → ℕ) (width channels x y c : ℕ) : ℤ :=
  (input ((y * width + x) * channels + c) : ℤ)

/-- The 3x3 weighted sum of both applyConvolution loops, unrolled in
source order; kernel row ky+1 reads image row y+ky, so row index 0 of k
pairs with image row y-1.  The weights are the integer numerators over
a common denominator, which keeps the float arithmetic exact. -/
def convSum (input : ℕ → ℕ) (width channels x y c : ℕ) (k : ℕ → ℕ → ℤ) : ℤ :=
  k 0 0 * sampleAt input width channels (x - 1) (y - 1) c +
  k 0 1 * sampleAt input width channels x (y - 1) c +
  k 0 2 * sampleAt input width channels (x + 1) (y - 1) c +
  k 1 0 * sampleAt input width channels (x - 1) y c +
  k 1 1 * sampleAt input width channels x y c +
  k 1 2 * sampleAt input width channels (x + 1) y c +
  k 2 0 * sampleAt input width channels (x - 1) (y + 1) c +
  k 2 1 * sampleAt input width channels x (y + 1) c +
  k 2 2 * sampleAt input width channels (x + 1) (y + 1) c

/-- src_threads convolution store (line 78):
`(unsigned char)max(0.0f, min(255.0f, sum))` — clamp the float sum
(here S/den) to [0, 255] and then truncate. -/
def clampTrunc (S : ℤ) (den : ℕ) : ℕ :=
  if S ≤ 0 then 0
  else if (255 * den : ℤ) ≤ S then 255
  else (Int.tdiv S den).toNat

/-- src_openmp convolution store (line 67):
`(unsigned char)max(0, min(255, (int)sum))` — truncate the float sum
toward zero first (C int cast, T-division), then clamp to [0, 255]. -/
def clampCast (S : ℤ) (den : ℕ) : ℕ :=
  (max 0 (min 255 (Int.tdiv S (den : ℕ)))).toNat

/-- Interior-pixel write condition shared by every convolution-family
loop in both mains: 1 <= x < width-1 and 1 <= y < height-1 (src_openmp
lines 57-58 and 100-101, src_threads lines 66-69 and 109-112). -/
def convCond (width height channels : ℕ) (j : ℕ) : Bool :=
  decide (1 ≤ j / channels % width ∧ j / channels % width < width - 1 ∧
          1 ≤ rowOf width channels j ∧ rowOf width channels j < height - 1)

/-- Value stored by the src_threads convolution at flat index j. -/
def convValT (input : ℕ → ℕ) (width channels : ℕ) (k : ℕ → ℕ → ℤ) (den : ℕ)
    (j : ℕ) : ℕ :=
  clampTrunc (convSum input width channels (j / channels % width)
      (rowOf width channels j) (j % channels) k) den

/-- Value stored by the src_openmp convolution at flat index j. -/
def convValO (input : ℕ → ℕ) (width channels : ℕ) (k : ℕ → ℕ → ℤ) (den : ℕ)
    (j : ℕ) : ℕ :=
  clampCast (convSum input width channels (j / channels % width)
      (rowOf width channels j) (j % channels) k) den

/-- Sobel magnitude store, identical in both mains:
`(int)sqrt(sumX*sumX + sumY*sumY)` then `max(0, min(255, magnitude))`;
for exact integer sums the truncated float sqrt is the integer sqrt. -/
def edgeVal (input : ℕ → ℕ) (width channels : ℕ) (j : ℕ) : ℕ :=
  let sX := convSum input width channels (j / channels % width)
      (rowOf width channels j) (j % channels) sobelGx
  let sY := convSum input width channels (j / channels % width)
      (rowOf width channels j) (j % channels) sobelGy
  min 255 (Nat.sqrt ((sX * sX + sY * sY).toNat))

/-- src_openmp applyGrayscale (lines 35-51): a no-op when channels < 3,
otherwise every pixel i < width*height gets the gray value on channels
0..2 and copies the input alpha when channels == 4. -/
def applyGrayscaleO (input out : ℕ → ℕ) (width height channels : ℕ) : ℕ → ℕ :=
  fun j =>
    if 3 ≤ channels ∧ j / channels < width * height ∧
       (j % channels ≤ 2 ∨ (channels = 4 ∧ j % channels = 3))
    then grayVal input channels j else out j

/-- src_openmp applyConvolution (lines 54-71): every interior pixel and
every channel (the alpha channel included) gets the clamped truncated
kernel sum; the border keeps the previous output contents. -/
def applyConvolutionO (input out : ℕ → ℕ) (width height channels : ℕ)
    (k : ℕ → ℕ → ℤ) (den : ℕ) : ℕ → ℕ :=
  fun j =>
    if convCond width height channels j = true
    then convValO input width channels k den j else out j

/-- src_openmp applyEdge (lines 94-117). -/
def applyEdgeO (input out : ℕ → ℕ) (width height channels : ℕ) : ℕ → ℕ :=
  fun j =>
    if convCond width height channels j = true
    then edgeVal input width channels j else out j

/-- src_openmp applyBrightness (lines 120-126): every sample
i < width*height*channels (the alpha channel included) becomes
`max(0, min(255, input[i] + value))`. -/
def applyBrightnessO (input out : ℕ → ℕ) (width height channels : ℕ)
    (value : ℤ) : ℕ → ℕ :=
  fun j =>
    if j < width * height * channels
    then (max 0 (min 255 ((input j : ℤ) + value))).toNat else out j

/-- Pipeline stages of both mains. -/
inductive Stage
  | grayscale
  | blur
  | sharpen
  | edge
  | brightness
deriving DecidableEq

/-- Buffers a stage can read or write: the decoded image, bufferA,
bufferB. -/
inductive Buf
  | orig
  | bufA
  | bufB
deriving DecidableEq

/-- Stage sequence and (input, output) buffer of each stage in
src_openmp main (lines 186-210): Grayscale, Blur, Edge, Sharpen,
Brightness. -/
def openmpPlan : List (Stage × Buf × Buf) :=
  [(Stage.grayscale, Buf.orig, Buf.bufA),
   (Stage.blur, Buf.bufA, Buf.bufB),
   (Stage.edge, Buf.bufB, Buf.bufA),
   (Stage.sharpen, Buf.bufA, Buf.bufB),
   (Stage.brightness, Buf.bufB, Buf.bufA)]

/-- Stage sequence and buffers of src_threads main (lines 201-218):
Grayscale, Blur, Sharpen, Edge, Brightness — Sharpen and Edge are
swapped relative to src_openmp. -/
def threadsPlan : List (Stage × Buf × Buf) :=
  [(Stage.grayscale, Buf.orig, Buf.bufA),
   (Stage.blur, Buf.bufA, Buf.bufB),
   (Stage.sharpen, Buf.bufB, Buf.bufA),
   (Stage.edge, Buf.bufA, Buf.bufB),
   (Stage.brightness, Buf.bufB, Buf.bufA)]

/-- The plan chains: each stage reads exactly the buffer the previous
stage wrote. -/
def chainOk : List (Stage × Buf × Buf) → Bool
  | a :: b :: rest => decide (a.2.2 = b.2.1) && chainOk (b :: rest)
  | _ => true

/-- Write condition of each src_threads stage at flat index j (which
samples inside an assigned row the worker loop stores to). -/
def stageCond (s : Stage) (width height channels : ℕ) : ℕ → Bool :=
  match s with
  | Stage.grayscale => fun j =>
      decide (3 ≤ channels ∧ (j % channels ≤ 2 ∨ (channels = 4 ∧ j % channels = 3)))
  | Stage.blur => convCond width height channels
  | Stage.sharpen => convCond width height channels
  | Stage.edge => convCond width height channels
  | Stage.brightness => fun _ => true

/-- Value each src_threads stage stores at flat index j; brightness is
called with value 50 and skips the alpha channel (lines 130-144, 218). -/
def stageVal (s : Stage) (input : ℕ → ℕ) (width channels : ℕ) : ℕ → ℕ :=
  match s with
  | Stage.grayscale => grayVal input channels
  | Stage.blur => convValT input width channels blurK 16
  | Stage.sharpen => convValT input width channels sharpenK 1
  | Stage.edge => edgeVal input width channels
  | Stage.brightness => fun j =>
      if channels = 4 ∧ j % channels = 3 then input j
      else (max 0 (min 255 ((input j : ℤ) + 50))).toNat

/-- One src_threads stage run through runParallel with numThreads
workers over all height rows. -/
def runStageT (s : Stage) (numThreads : ℕ) (input out : ℕ → ℕ)
    (width height channels : ℕ) : ℕ → ℕ :=
  runParallel width channels (stageCond s width height channels)
    (stageVal s input width channels) numThreads height out

/-- One src_openmp stage (the OpenMP loops carry no dependence on the
thread count; brightness is called with value 50, line 205). -/
def runStageO (s : Stage) (input out : ℕ → ℕ)
    (width height channels : ℕ) : ℕ → ℕ :=
  match s with
  | Stage.grayscale => applyGrayscaleO input out width height channels
  | Stage.blur => applyConvolutionO input out width height channels blurK 16
  | Stage.sharpen => applyConvolutionO input out width height channels sharpenK 1
  | Stage.edge => applyEdgeO input out width height channels
  | Stage.brightness => applyBrightnessO input out width height channels 50

/-- Kernel numerators of the two convolution stages. -/
def convKernel : Stage → (ℕ → ℕ → ℤ)
  | Stage.blur => blurK
  | Stage.sharpen => sharpenK
  | _ => fun _ _ => 0

/-- Kernel denominator of the two convolution stages. -/
def convDen : Stage → ℕ
  | Stage.blur => 16
  | _ => 1

/-- Reading of the specification formula `gray = round(0.299R + 0.587G
+ 0.114B)` with exact arithmetic: round to nearest, x ↦ floor(x + 1/2)
on the nonnegative range. -/
def specGrayRound (r g b : ℕ) : ℕ :=
  (2 * (299 * r + 587 * g + 114 * b) + 1000) / 2000

/-- Reading of the specification formula `clamp(round(sum), 0, 255)`
for a kernel sum S/den: round to nearest as floor((2S + den)/(2 den)),
then clamp. -/
def specConvRound (S : ℤ) (den : ℕ) : ℕ :=
  (max 0 (min 255 (Int.ediv (2 * S + den) (2 * den : ℕ)))).toNat

/-- Row y is written by a src_threads stage run: the resulting samples
of that row do not depend on the previous contents of the output
buffer. -/
def rowWritten (s : Stage) (numThreads : ℕ) (input : ℕ → ℕ)
    (width height channels y : ℕ) : Prop :=
  ∀ out1 out2 : ℕ → ℕ, ∀ j, rowOf width channels j = y →
    runStageT s numThreads input out1 width height channels j =
    runStageT s numThreads input out2 width height channels j

/-- Concrete 4x4 3-channel image whose every pixel is (100, 150, 200). -/
def imgRGB : ℕ → ℕ :=
  fun j => if j % 3 = 0 then 100 else if j % 3 = 1 then 150 else 200

/-- Concrete 3x3 4-channel image: channel 0 is 9 at pixel (0,0) and 0
elsewhere; the alpha channel is 160 at pixel (1,1) and 0 elsewhere. -/
def imgC3 : ℕ → ℕ :=
  fun j =>
    if j % 4 = 0 ∧ j / 4 = 0 then 9
    else if j % 4 = 3 ∧ j / 4 = 4 then 160
    else 0

/-- Concrete 1x1 4-channel pixel with color 210 and alpha 100. -/
def imgC9 : ℕ → ℕ := fun j => if j = 3 then 100 else 210

/-! Helper lemmas. -/

lemma foldl_writeRows (width channels : ℕ) (cond : ℕ → Bool) (val : ℕ → ℕ)
    (L : List (ℕ × ℕ)) (out : ℕ → ℕ) (j : ℕ) :
    L.foldl (fun acc r => writeRows width channels cond val r.1 r.2 acc) out j =
      if (∃ r ∈ L, r.1 ≤ rowOf width channels j ∧ rowOf width channels j < r.2) ∧
          cond j = true
      then val j else out j := by
  induction L generalizing out with
  | nil => simp
  | cons r L ih =>
    rw [List.foldl_cons, ih]
    by_cases hc : cond j = true
    · by_cases hr : r.1 ≤ rowOf width channels j ∧ rowOf width channels j < r.2
      · by_cases hL : ∃ x ∈ L, x.1 ≤ rowOf width channels j ∧ rowOf width channels j < x.2
        · simp [writeRows, hr, hL, hc]
        · simp [writeRows, hr, hL, hc]
      · by_cases hL : ∃ x ∈ L, x.1 ≤ rowOf width channels j ∧ rowOf width channels j < x.2
        · simp [writeRows, hr, hL, hc]
        · simp [writeRows, hr, hL, hc]
    · simp [writeRows, hc]

lemma pixIdx_div (w ch x y c : ℕ) (hc : c < ch) :
    pixIdx w ch x y c / ch = y * w + x := by
  unfold pixIdx
  rw [Nat.mul_comm (y * w + x) ch, Nat.mul_add_div (by omega), Nat.div_eq_of_lt hc,
    Nat.add_zero]

lemma pixIdx_mod (w ch x y c : ℕ) (hc : c < ch) :
    pixIdx w ch x y c % ch = c := by
  unfold pixIdx
  rw [Nat.mul_comm (y * w + x) ch, Nat.mul_add_mod, Nat.mod_eq_of_lt hc]

lemma rowOf_pixIdx (w ch x y c : ℕ) (hc : c < ch) (hx : x < w) :
    rowOf w ch (pixIdx w ch x y c) = y := by
  unfold rowOf
  rw [pixIdx_div w ch x y c hc, Nat.mul_comm y w, Nat.mul_add_div (by omega),
    Nat.div_eq_of_lt hx, Nat.add_zero]

lemma colOf_pixIdx (w ch x y c : ℕ) (hc : c < ch) (hx : x < w) :
    pixIdx w ch x y c / ch % w = x := by
  rw [pixIdx_div w ch x y c hc, Nat.mul_comm y w, Nat.mul_add_mod, Nat.mod_eq_of_lt hx]

lemma pix_lt (w h x y : ℕ) (hx : x < w) (hy : y < h) : y * w + x < w * h := by
  have h1 : y * w + x < (y + 1) * w := by
    rw [Nat.succ_mul]
    exact Nat.add_lt_add_left hx _
  have h2 : (y + 1) * w ≤ h * w := Nat.mul_le_mul_right _ (by omega)
  exact Nat.lt_of_lt_of_le h1 (Nat.le_trans h2 (Nat.le_of_eq (Nat.mul_comm h w)))

lemma rangeFor_subset (n h i y : ℕ) (hy : inRange n h i y) (hi : i < n) : y < h := by
  unfold inRange rangeFor at hy
  by_cases hl : i = n - 1
  · simp only [hl, if_pos rfl] at hy
    exact hy.2
  · simp only [if_neg hl] at hy
    have h1 : (i + 1) * (h / n) ≤ n * (h / n) :=
      Nat.mul_le_mul_right _ (by omega)
    have h2 : n * (h / n) ≤ h := by
      rw [Nat.mul_comm]
      exact Nat.div_mul_le_self h n
    exact Nat.lt_of_lt_of_le hy.2 (Nat.le_trans h1 h2)

lemma exists_range (n h y : ℕ) (hn : 1 ≤ n) (hy : y < h) :
    ∃ i, i < n ∧ inRange n h i y := by
  by_cases hq : h / n = 0
  · refine ⟨n - 1, by omega, ?_, ?_⟩
    · show (n - 1) * (h / n) ≤ y
      simp [hq]
    · show y < (if n - 1 = n - 1 then h else (n - 1 + 1) * (h / n))
      simpa using hy
  · have hqpos : 0 < h / n := Nat.pos_of_ne_zero hq
    by_cases hi : y / (h / n) < n - 1
    · refine ⟨y / (h / n), by omega, ?_, ?_⟩
      · show y / (h / n) * (h / n) ≤ y
        exact Nat.div_mul_le_self y (h / n)
      · show y < (if y / (h / n) = n - 1 then h else (y / (h / n) + 1) * (h / n))
        rw [if_neg (Nat.ne_of_lt hi)]
        have hmod : y % (h / n) < h / n := Nat.mod_lt y hqpos
        have hdm : (h / n) * (y / (h / n)) + y % (h / n) = y := Nat.div_add_mod y (h / n)
        calc y = (h / n) * (y / (h / n)) + y % (h / n) := hdm.symm
          _ < (h / n) * (y / (h / n)) + (h / n) := Nat.add_lt_add_left hmod _
          _ = (y / (h / n) + 1) * (h / n) := by ring
    · have hge : n - 1 ≤ y / (h / n) := Nat.le_of_not_lt hi
      refine ⟨n - 1, by omega, ?_, ?_⟩
      · show (n - 1) * (h / n) ≤ y
        have h1 : (n - 1) * (h / n) ≤ y / (h / n) * (h / n) :=
          Nat.mul_le_mul_right (h / n) hge
        exact Nat.le_trans h1 (Nat.div_mul_le_self y (h / n))
      · show y < (if n - 1 = n - 1 then h else (n - 1 + 1) * (h / n))
        simpa using hy

lemma ranges_disjoint (n h i j : ℕ) (hij : i < j) (hj : j < n) :
    (rangeFor n h i).2 ≤ (rangeFor n h j).1 := by
  unfold rangeFor
  simp only [if_neg (show i ≠ n - 1 by omega)]
  exact Nat.mul_le_mul_right _ (by omega)

lemma inRange_unique (n h i j y : ℕ) (hi : i < n) (hj : j < n)
    (h1 : inRange n h i y) (h2 : inRange n h j y) : i = j := by
  rcases Nat.lt_trichotomy i j with hlt | heq | hgt
  · have hd := ranges_disjoint n h i j hlt hj
    unfold inRange at h1 h2
    omega
  · exact heq
  · have hd := ranges_disjoint n h j i hgt hi
    unfold inRange at h1 h2
    omega

lemma runParallel_apply (width channels : ℕ) (cond : ℕ → Bool) (val : ℕ → ℕ)
    (n hgt : ℕ) (hn : 1 ≤ n) (out : ℕ → ℕ) (j : ℕ) :
    runParallel width channels cond val n hgt out j =
      if rowOf width channels j < hgt ∧ cond j = true then val j else out j := by
  unfold runParallel
  rw [foldl_writeRows]
  have hiff : (∃ r ∈ partitionRanges n hgt,
      r.1 ≤ rowOf width channels j ∧ rowOf width channels j < r.2) ↔
      rowOf width channels j < hgt := by
    constructor
    · rintro ⟨r, hr, hry⟩
      rw [partitionRanges, List.mem_map] at hr
      obtain ⟨i, hi, rfl⟩ := hr
      exact rangeFor_subset n hgt i _ hry (List.mem_range.mp hi)
    · intro hy
      obtain ⟨i, hi, hin⟩ := exists_range n hgt _ hn hy
      exact ⟨rangeFor n hgt i,
        by rw [partitionRanges, List.mem_map]; exact ⟨i, List.mem_range.mpr hi, rfl⟩, hin⟩
  simp only [hiff]

lemma tdiv_ofNat (m k : ℕ) : Int.tdiv (m : ℤ) (k : ℤ) = ((m / k : ℕ) : ℤ) := rfl

lemma tdiv_nonpos_of_nonpos (S : ℤ) (k : ℕ) (hS : S ≤ 0) : Int.tdiv S (k : ℤ) ≤ 0 := by
  rcases S with m | m
  · rcases m with _ | m
    · simp
    · have h2 : ((m + 1 : ℕ) : ℤ) ≤ 0 := hS
      omega
  · rw [show Int.tdiv (Int.negSucc m) (k : ℤ) = -(((m + 1) / k : ℕ) : ℤ) from rfl]
    exact neg_nonpos.mpr (Int.natCast_nonneg _)

lemma clampCast_eq_clampTrunc (S : ℤ) (den : ℕ) (hden : 0 < den) :
    clampCast S den = clampTrunc S den := by
  unfold clampCast clampTrunc
  by_cases hS : S ≤ 0
  · rw [if_pos hS]
    have ht := tdiv_nonpos_of_nonpos S den hS
    rw [min_eq_right (show Int.tdiv S (den : ℤ) ≤ 255 by omega), max_eq_left ht]
    rfl
  · rw [if_neg hS]
    push_neg at hS
    obtain ⟨s, rfl⟩ : ∃ s : ℕ, S = (s : ℤ) := ⟨S.toNat, by omega⟩
    rw [tdiv_ofNat]
    by_cases h2 : (255 * den : ℤ) ≤ (s : ℤ)
    · rw [if_pos h2]
      have hsd : 255 ≤ s / den := by
        have h255 : 255 * den ≤ s := by exact_mod_cast h2
        exact (Nat.le_div_iff_mul_le hden).mpr h255
      rw [min_eq_left (by exact_mod_cast hsd), max_eq_right (by omega)]
      rfl
    · rw [if_neg h2]
      have hsd : s / den < 255 := by
        have h255 : s < 255 * den := by omega
        exact (Nat.div_lt_iff_lt_mul hden).mpr h255
      rw [min_eq_right (by exact_mod_cast Nat.le_of_lt hsd),
        max_eq_right (Int.natCast_nonneg _)]

lemma convCond_pixIdx (w h ch x y c : ℕ) (hc : c < ch) (hx : x < w) :
    convCond w h ch (pixIdx w ch x y c) =
      decide (1 ≤ x ∧ x < w - 1 ∧ 1 ≤ y ∧ y < h - 1) := by
  unfold convCond
  rw [colOf_pixIdx w ch x y c hc hx, rowOf_pixIdx w ch x y c hc hx]

lemma convCond_true (w h ch x y c : ℕ) (hc : c < ch) (hx1 : 1 ≤ x) (hx2 : x + 1 < w)
    (hy1 : 1 ≤ y) (hy2 : y + 1 < h) :
    convCond w h ch (pixIdx w ch x y c) = true := by
  rw [convCond_pixIdx w h ch x y c hc (by omega)]
  simp only [decide_eq_true_eq]
  omega

lemma convCond_false_border (w h ch x y c : ℕ) (hc : c < ch) (hx : x < w) (hy : y < h)
    (hb : x = 0 ∨ x + 1 = w ∨ y = 0 ∨ y + 1 = h) :
    convCond w h ch (pixIdx w ch x y c) = false := by
  rw [convCond_pixIdx w h ch x y c hc hx]
  simp only [decide_eq_false_iff_not]
  omega

lemma convValT_pixIdx (input : ℕ → ℕ) (w ch x y c : ℕ) (k : ℕ → ℕ → ℤ) (den : ℕ)
    (hc : c < ch) (hx : x < w) :
    convValT input w ch k den (pixIdx w ch x y c) =
      clampTrunc (convSum input w ch x y c k) den := by
  unfold convValT
  rw [colOf_pixIdx w ch x y c hc hx, rowOf_pixIdx w ch x y c hc hx,
    pixIdx_mod w ch x y c hc]

lemma convValO_pixIdx (input : ℕ → ℕ) (w ch x y c : ℕ) (k : ℕ → ℕ → ℤ) (den : ℕ)
    (hc : c < ch) (hx : x < w) :
    convValO input w ch k den (pixIdx w ch x y c) =
      clampCast (convSum input w ch x y c k) den := by
  unfold convValO
  rw [colOf_pixIdx w ch x y c hc hx, rowOf_pixIdx w ch x y c hc hx,
    pixIdx_mod w ch x y c hc]

lemma runStageT_written (s : Stage) (n : ℕ) (hn : 1 ≤ n) (input out : ℕ → ℕ)
    (w h ch : ℕ) (j : ℕ) (hrow : rowOf w ch j < h)
    (hcond : stageCond s w h ch j = true) :
    runStageT s n input out w h ch j = stageVal s input w ch j := by
  unfold runStageT
  rw [runParallel_apply w ch _ _ n h hn out j, if_pos ⟨hrow, hcond⟩]

lemma runStageT_skipped (s : Stage) (n : ℕ) (hn : 1 ≤ n) (input out : ℕ → ℕ)
    (w h ch : ℕ) (j : ℕ)
    (h1 : ¬(rowOf w ch j < h ∧ stageCond s w h ch j = true)) :
    runStageT s n input out w h ch j = out j := by
  unfold runStageT
  rw [runParallel_apply w ch _ _ n h hn out j, if_neg h1]

lemma convSum_const (color : ℕ → ℕ) (w ch x y c : ℕ) (hc : c < ch)
    (k : ℕ → ℕ → ℤ) :
    convSum (fun j => color (j % ch)) w ch x y c k =
      (k 0 0 + k 0 1 + k 0 2 + k 1 0 + k 1 1 + k 1 2 + k 2 0 + k 2 1 + k 2 2) *
        (color c : ℤ) := by
  unfold convSum sampleAt
  have hmod : ∀ A : ℕ, (A * ch + c) % ch = c := fun A => by
    rw [Nat.mul_comm A ch, Nat.mul_add_mod, Nat.mod_eq_of_lt hc]
  simp only [hmod]
  ring

lemma clampTrunc_den_mul (v den : ℕ) (hv : v ≤ 255) (hden : 0 < den) :
    clampTrunc ((den : ℤ) * (v : ℤ)) den = v := by
  unfold clampTrunc
  rcases Nat.eq_zero_or_pos v with h0 | h0
  · subst h0
    simp
  · have hpos : (0 : ℤ) < (den : ℤ) * (v : ℤ) :=
      mul_pos (by exact_mod_cast hden) (by exact_mod_cast h0)
    rw [if_neg (not_le.mpr hpos)]
    by_cases hv255 : v = 255
    · subst hv255
      rw [if_pos (le_of_eq (by ring))]
    · have hlt : (den : ℤ) * (v : ℤ) < (den : ℤ) * 255 :=
        mul_lt_mul_of_pos_left (by exact_mod_cast (show v < 255 by omega))
          (by exact_mod_cast hden)
      rw [if_neg (not_le.mpr (by rw [Int.mul_comm (den : ℤ) 255] at hlt; exact hlt))]
      rw [show ((den : ℤ) * (v : ℤ)) = ((den * v : ℕ) : ℤ) by push_cast; ring,
        tdiv_ofNat, Nat.mul_div_cancel_left v hden]
      simp

lemma partition_sum_lengths (n h : ℕ) (hn : 1 ≤ n) :
    ((partitionRanges n h).map (fun r => r.2 - r.1)).sum = h := by
  obtain ⟨m, rfl⟩ : ∃ m, n = m + 1 := ⟨n - 1, by omega⟩
  unfold partitionRanges
  rw [List.map_map, List.range_succ, List.map_append, List.sum_append]
  have hconst : ∀ i ∈ List.range m,
      ((fun r : ℕ × ℕ => r.2 - r.1) ∘ rangeFor (m + 1) h) i = h / (m + 1) := by
    intro i hi
    have him : i < m := List.mem_range.mp hi
    show (rangeFor (m + 1) h i).2 - (rangeFor (m + 1) h i).1 = h / (m + 1)
    unfold rangeFor
    rw [if_neg (show ¬i = m + 1 - 1 by omega)]
    show (i + 1) * (h / (m + 1)) - i * (h / (m + 1)) = h / (m + 1)
    rw [Nat.succ_mul, Nat.add_sub_cancel_left]
  rw [List.map_congr_left hconst, List.map_const', List.length_range, List.sum_replicate,
    smul_eq_mul]
  have hlast : (rangeFor (m + 1) h m).2 - (rangeFor (m + 1) h m).1 =
      h - m * (h / (m + 1)) := by
    unfold rangeFor
    rw [if_pos (by omega)]
  have hle : m * (h / (m + 1)) ≤ h := by
    have h1 : m * (h / (m + 1)) ≤ (m + 1) * (h / (m + 1)) :=
      Nat.mul_le_mul_right _ (by omega)
    have h2 : (m + 1) * (h / (m + 1)) ≤ h := by
      rw [Nat.mul_comm]
      exact Nat.div_mul_le_self h (m + 1)
    exact Nat.le_trans h1 h2
  simp only [List.map_cons, List.map_nil, List.sum_cons, List.sum_nil, Function.comp]
  rw [show (rangeFor (m + 1) h m).2 - (rangeFor (m + 1) h m).1 = h - m * (h / (m + 1))
    from hlast]
  omega

lemma runStageT_eq_one (s : Stage) (n : ℕ) (hn : 1 ≤ n) (input out : ℕ → ℕ)
    (w h ch : ℕ) :
    runStageT s n input out w h ch = runStageT s 1 input out w h ch := by
  funext j
  unfold runStageT
  rw [runParallel_apply w ch _ _ n h hn out j,
    runParallel_apply w ch _ _ 1 h (le_refl 1) out j]

lemma pixIdx_lt_total (w h ch x y c : ℕ) (hc : c < ch) (hx : x < w) (hy : y < h) :
    pixIdx w ch x y c < w * h * ch := by
  unfold pixIdx
  have h1 : y * w + x + 1 ≤ w * h := pix_lt w h x y hx hy
  calc (y * w + x) * ch + c < (y * w + x) * ch + ch := Nat.add_lt_add_left hc _
    _ = (y * w + x + 1) * ch := by ring
    _ ≤ w * h * ch := Nat.mul_le_mul_right _ h1

lemma grayVal_pixIdx_rgb (input : ℕ → ℕ) (w ch x y c : ℕ) (hc2 : c ≤ 2) (hc : c < ch) :
    grayVal input ch (pixIdx w ch x y c) =
      grayPix (input (pixIdx w ch x y 0)) (input (pixIdx w ch x y 1))
        (input (pixIdx w ch x y 2)) := by
  unfold grayVal
  rw [pixIdx_mod w ch x y c hc, if_pos hc2, pixIdx_div w ch x y c hc]
  unfold pixIdx
  simp

lemma grayVal_pixIdx_alpha (input : ℕ → ℕ) (w ch x y : ℕ) (hch : 3 < ch) :
    grayVal input ch (pixIdx w ch x y 3) = input (pixIdx w ch x y 3) := by
  unfold grayVal
  rw [pixIdx_mod w ch x y 3 hch, if_neg (by omega)]

lemma stageCond_gray_true (w h ch x y c : ℕ) (hch : 3 ≤ ch) (hc : c < ch)
    (hwrite : c ≤ 2 ∨ (ch = 4 ∧ c = 3)) :
    stageCond Stage.grayscale w h ch (pixIdx w ch x y c) = true := by
  show decide (3 ≤ ch ∧ (pixIdx w ch x y c % ch ≤ 2 ∨
    (ch = 4 ∧ pixIdx w ch x y c % ch = 3))) = true
  rw [pixIdx_mod w ch x y c hc]
  simp only [decide_eq_true_eq]
  exact ⟨hch, hwrite⟩

lemma applyGrayscaleO_pix (input out : ℕ → ℕ) (w h ch x y c : ℕ) (hch : 3 ≤ ch)
    (hx : x < w) (hy : y < h) (hc : c < ch) (hwrite : c ≤ 2 ∨ (ch = 4 ∧ c = 3)) :
    applyGrayscaleO input out w h ch (pixIdx w ch x y c) =
      grayVal input ch (pixIdx w ch x y c) := by
  unfold applyGrayscaleO
  rw [pixIdx_div w ch x y c hc, pixIdx_mod w ch x y c hc]
  rw [if_pos ⟨hch, pix_lt w h x y hx hy, hwrite⟩]

lemma conv_interior_both (s : Stage) (hs : s = Stage.blur ∨ s = Stage.sharpen)
    (input out : ℕ → ℕ) (w h ch n x y c : ℕ) (hn : 1 ≤ n) (hc : c < ch)
    (hx1 : 1 ≤ x) (hx2 : x + 1 < w) (hy1 : 1 ≤ y) (hy2 : y + 1 < h) :
    runStageO s input out w h ch (pixIdx w ch x y c) =
      clampTrunc (convSum input w ch x y c (convKernel s)) (convDen s) ∧
    runStageT s n input out w h ch (pixIdx w ch x y c) =
      clampTrunc (convSum input w ch x y c (convKernel s)) (convDen s) := by
  have hx : x < w := by omega
  have hy : y < h := by omega
  have hcond : convCond w h ch (pixIdx w ch x y c) = true :=
    convCond_true w h ch x y c hc hx1 hx2 hy1 hy2
  have hrow : rowOf w ch (pixIdx w ch x y c) < h := by
    rw [rowOf_pixIdx w ch x y c hc hx]
    exact hy
  rcases hs with rfl | rfl
  · constructor
    · show applyConvolutionO input out w h ch blurK 16 (pixIdx w ch x y c) = _
      unfold applyConvolutionO
      rw [if_pos hcond, convValO_pixIdx input w ch x y c blurK 16 hc hx,
        clampCast_eq_clampTrunc _ _ (by omega)]
      rfl
    · rw [runStageT_written Stage.blur n hn input out w h ch _ hrow hcond]
      show convValT input w ch blurK 16 (pixIdx w ch x y c) = _
      rw [convValT_pixIdx input w ch x y c blurK 16 hc hx]
      rfl
  · constructor
    · show applyConvolutionO input out w h ch sharpenK 1 (pixIdx w ch x y c) = _
      unfold applyConvolutionO
      rw [if_pos hcond, convValO_pixIdx input w ch x y c sharpenK 1 hc hx,
        clampCast_eq_clampTrunc _ _ (by omega)]
      rfl
    · rw [runStageT_written Stage.sharpen n hn input out w h ch _ hrow hcond]
      show convValT input w ch sharpenK 1 (pixIdx w ch x y c) = _
      rw [convValT_pixIdx input w ch x y c sharpenK 1 hc hx]
      rfl

/-! Claim theorems. -/

/-- Claim C1, counterexample: the claim says both mains run the stages
in the order Grayscale, Blur, Edge, Sharpen, Brightness, but the
src_threads main runs Sharpen as stage 3 and Edge as stage 4
(main.cpp lines 210-214), so its stage list is not the claimed one. -/
theorem c1_counterexample :
    threadsPlan.map (fun e => e.1) ≠
      [Stage.grayscale, Stage.blur, Stage.edge, Stage.sharpen, Stage.brightness] := by
  decide

/-- Claim C1, amended: src_openmp applies Grayscale, Blur, Edge,
Sharpen, Brightness while src_threads applies Grayscale, Blur, Sharpen,
Edge, Brightness; in both mains the first stage reads the decoded image
and writes bufferA, every later stage reads exactly the buffer the
previous stage wrote, alternating between the two buffers, and no stage
writes the buffer it reads (never in place). -/
theorem c1_amended :
    openmpPlan.map (fun e => e.1) =
      [Stage.grayscale, Stage.blur, Stage.edge, Stage.sharpen, Stage.brightness] ∧
    threadsPlan.map (fun e => e.1) =
      [Stage.grayscale, Stage.blur, Stage.sharpen, Stage.edge, Stage.brightness] ∧
    chainOk openmpPlan = true ∧ chainOk threadsPlan = true ∧
    (∀ e ∈ openmpPlan, e.2.1 ≠ e.2.2) ∧ (∀ e ∈ threadsPlan, e.2.1 ≠ e.2.2) ∧
    openmpPlan.head? = some (Stage.grayscale, Buf.orig, Buf.bufA) ∧
    threadsPlan.head? = some (Stage.grayscale, Buf.orig, Buf.bufA) := by
  decide

/-- Claim C5: for 1 ≤ workerCount ≤ height the partition gives worker
i < workerCount-1 the range [i*(height/workerCount),
(i+1)*(height/workerCount)), the last worker
[(workerCount-1)*(height/workerCount), height); the ranges are ordered
and disjoint, their union is exactly [0, height), and the lengths sum
to height. -/
theorem c5_partition (n h : ℕ) (hn : 1 ≤ n) (hnh : n ≤ h) :
    (∀ i, i + 1 < n → rangeFor n h i = (i * (h / n), (i + 1) * (h / n))) ∧
    rangeFor n h (n - 1) = ((n - 1) * (h / n), h) ∧
    (∀ i j, i < j → j < n → (rangeFor n h i).2 ≤ (rangeFor n h j).1) ∧
    (∀ y, y < h ↔ ∃ i, i < n ∧ inRange n h i y) ∧
    ((partitionRanges n h).map (fun r => r.2 - r.1)).sum = h := by
  refine ⟨?_, ?_, ?_, ?_, partition_sum_lengths n h hn⟩
  · intro i hi
    unfold rangeFor
    rw [if_neg (show ¬i = n - 1 by omega)]
  · unfold rangeFor
    rw [if_pos rfl]
  · exact fun i j hij hj => ranges_disjoint n h i j hij hj
  · intro y
    constructor
    · exact fun hy => exists_range n h y hn hy
    · rintro ⟨i, hi, hin⟩
      exact rangeFor_subset n h i y hin hi

/-- Claim C5, witness at workerCount 2, height 5: the last worker gets
[2, 5) and the range lengths sum to 5. -/
theorem c5_witness :
    rangeFor 2 5 1 = (1 * (5 / 2), 5) ∧
    ((partitionRanges 2 5).map (fun r => r.2 - r.1)).sum = 5 :=
  ⟨(c5_partition 2 5 (by decide) (by decide)).2.1,
   (c5_partition 2 5 (by decide) (by decide)).2.2.2.2⟩

/-- Claim C6, counterexample: for workerCount 5 and height 3 the code
clamps nothing — it still spawns 5 workers and the first four get the
empty range [0, 0), so empty, degenerate ranges do occur (and no
InvalidWorkerCount check exists anywhere in either main). -/
theorem c6_counterexample :
    (partitionRanges 5 3).length = 5 ∧ (0, 0) ∈ partitionRanges 5 3 ∧
    (rangeFor 5 3 0).1 = (rangeFor 5 3 0).2 := by
  decide

/-- Claim C6, amended: runParallel never clamps the worker count and
main never validates it.  When workerCount > height ≥ 1, rowsPerThread
is 0, every worker except the last gets the empty range [0, 0), the
last worker gets the whole of [0, height), the partition still has
workerCount entries, and rows remain covered.  (For workerCount = 0 the
division height/workerCount divides by zero, and for negative counts
the spawn loop runs zero times; no InvalidWorkerCount error exists.) -/
theorem c6_amended (n h : ℕ) (hh : 1 ≤ h) (hnh : h < n) :
    (∀ i, i + 1 < n → rangeFor n h i = (0, 0)) ∧
    rangeFor n h (n - 1) = (0, h) ∧
    (partitionRanges n h).length = n ∧
    (∀ y, y < h → ∃ i, i < n ∧ inRange n h i y) := by
  have hq : h / n = 0 := Nat.div_eq_of_lt hnh
  refine ⟨?_, ?_, ?_, ?_⟩
  · intro i hi
    unfold rangeFor
    rw [if_neg (show ¬i = n - 1 by omega), hq]
    simp
  · unfold rangeFor
    rw [if_pos rfl, hq]
    simp
  · unfold partitionRanges
    simp
  · exact fun y hy => exists_range n h y (by omega) hy

/-- Claim C6, witness at workerCount 5, height 3: worker 0 gets the
empty range and worker 4 gets all three rows. -/
theorem c6_witness :
    rangeFor 5 3 0 = (0, 0) ∧ rangeFor 5 3 4 = (0, 3) ∧
    (partitionRanges 5 3).length = 5 :=
  ⟨(c6_amended 5 3 (by decide) (by decide)).1 0 (by decide),
   (c6_amended 5 3 (by decide) (by decide)).2.1,
   (c6_amended 5 3 (by decide) (by decide)).2.2.1⟩

/-- Claim C7: for each fixed stage, running the src_threads scheduler
with worker counts 1, 2, 4 or 8 produces the same output buffer as
running it with 1 worker — every sample, interior pixels included, is
byte-identical, so the output is deterministic in the partition count.
(The src_openmp model runStageO takes no thread count at all: its
loops carry no dependence between iterations, so the OpenMP path is
deterministic in the thread count by construction.) -/
theorem c7_determinism (s : Stage) (n : ℕ)
    (hn : n = 1 ∨ n = 2 ∨ n = 4 ∨ n = 8) (input out : ℕ → ℕ) (w h ch : ℕ) :
    runStageT s n input out w h ch = runStageT s 1 input out w h ch :=
  runStageT_eq_one s n (by rcases hn with rfl | rfl | rfl | rfl <;> omega)
    input out w h ch

/-- Claim C7, witness: the blur stage on the concrete 4x4 RGB image
with 4 workers equals the same stage with 1 worker. -/
theorem c7_witness :
    runStageT Stage.blur 4 imgRGB (fun _ => 0) 4 4 3 =
      runStageT Stage.blur 1 imgRGB (fun _ => 0) 4 4 3 :=
  c7_determinism Stage.blur 4 (Or.inr (Or.inr (Or.inl rfl))) imgRGB (fun _ => 0) 4 4 3

/-- Claim C2, counterexample: on the all-(100,150,200) image the code
writes 140 — the truncation of the float value 140.750001 — while the
specification formula round(0.299*100 + 0.587*150 + 0.114*200) =
round(140.75) is 141, so the output is not the claimed rounding. -/
theorem c2_counterexample :
    applyGrayscaleO imgRGB (fun _ => 0) 4 4 3 (pixIdx 4 3 0 0 0) = 140 ∧
    specGrayRound 100 150 200 = 141 ∧
    applyGrayscaleO imgRGB (fun _ => 0) 4 4 3 (pixIdx 4 3 0 0 0) ≠
      specGrayRound 100 150 200 := by
  decide

/-- Claim C2, amended: for channels ≥ 3, both mains set the R, G and B
samples of every pixel to the truncation (not the rounding) of the
binary32 expression 0.299f*R + 0.587f*G + 0.114f*B of the input pixel,
and copy the input alpha unchanged when channels = 4; on the
all-(100,150,200) image this gray value is 140. -/
theorem c2_amended (input out : ℕ → ℕ) (w h ch n x y c : ℕ) (hn : 1 ≤ n)
    (hch : 3 ≤ ch) (hx : x < w) (hy : y < h) :
    (c ≤ 2 →
      applyGrayscaleO input out w h ch (pixIdx w ch x y c) =
        grayPix (input (pixIdx w ch x y 0)) (input (pixIdx w ch x y 1))
          (input (pixIdx w ch x y 2)) ∧
      runStageT Stage.grayscale n input out w h ch (pixIdx w ch x y c) =
        grayPix (input (pixIdx w ch x y 0)) (input (pixIdx w ch x y 1))
          (input (pixIdx w ch x y 2))) ∧
    (ch = 4 → c = 3 →
      applyGrayscaleO input out w h ch (pixIdx w ch x y c) =
        input (pixIdx w ch x y c) ∧
      runStageT Stage.grayscale n input out w h ch (pixIdx w ch x y c) =
        input (pixIdx w ch x y c)) := by
  constructor
  · intro hc2
    have hc : c < ch := by omega
    have hrow : rowOf w ch (pixIdx w ch x y c) < h := by
      rw [rowOf_pixIdx w ch x y c hc hx]
      exact hy
    constructor
    · rw [applyGrayscaleO_pix input out w h ch x y c hch hx hy hc (Or.inl hc2),
        grayVal_pixIdx_rgb input w ch x y c hc2 hc]
    · rw [runStageT_written Stage.grayscale n hn input out w h ch _ hrow
        (stageCond_gray_true w h ch x y c hch hc (Or.inl hc2))]
      show grayVal input ch (pixIdx w ch x y c) = _
      rw [grayVal_pixIdx_rgb input w ch x y c hc2 hc]
  · intro h4 hc3
    subst h4
    subst hc3
    have hc : (3 : ℕ) < 4 := by omega
    have hrow : rowOf w 4 (pixIdx w 4 x y 3) < h := by
      rw [rowOf_pixIdx w 4 x y 3 hc hx]
      exact hy
    constructor
    · rw [applyGrayscaleO_pix input out w h 4 x y 3 hch hx hy hc
        (Or.inr ⟨rfl, rfl⟩), grayVal_pixIdx_alpha input w 4 x y (by omega)]
    · rw [runStageT_written Stage.grayscale n hn input out w h 4 _ hrow
        (stageCond_gray_true w h 4 x y 3 hch hc (Or.inr ⟨rfl, rfl⟩))]
      show grayVal input 4 (pixIdx w 4 x y 3) = _
      rw [grayVal_pixIdx_alpha input w 4 x y (by omega)]

/-- Claim C2, witness: at pixel (2, 1) of the 4x4 all-(100,150,200)
image both mains write the gray value 140. -/
theorem c2_witness :
    applyGrayscaleO imgRGB (fun _ => 0) 4 4 3 (pixIdx 4 3 2 1 0) = 140 ∧
    runStageT Stage.grayscale 2 imgRGB (fun _ => 0) 4 4 3 (pixIdx 4 3 2 1 0) = 140 := by
  obtain ⟨h1, h2⟩ :=
    (c2_amended imgRGB (fun _ => 0) 4 4 3 2 2 1 0 (by decide) (by decide) (by decide)
      (by decide)).1 (by decide)
  exact ⟨h1.trans (by decide), h2.trans (by decide)⟩

/-- Claim C3, counterexample: blur on a 3x3 4-channel image whose only
nonzero channel-0 sample is 9 at the corner writes 0 at the centre
(truncating 9/16 = 0.5625) while the claimed clamp(round(9/16)) is 1;
and the alpha sample 160 at the centre is convolved to 40 instead of
being passed through. -/
theorem c3_counterexample :
    runStageO Stage.blur imgC3 (fun _ => 0) 3 3 4 (pixIdx 3 4 1 1 0) = 0 ∧
    convSum imgC3 3 4 1 1 0 blurK = 9 ∧
    specConvRound 9 16 = 1 ∧
    runStageO Stage.blur imgC3 (fun _ => 0) 3 3 4 (pixIdx 3 4 1 1 3) = 40 ∧
    imgC3 (pixIdx 3 4 1 1 3) = 160 := by
  decide

/-- Claim C3, amended: for Blur and Sharpen, at every interior pixel
both mains store clamp(trunc(sum), 0, 255) — the kernel sum truncated
toward zero (not rounded) and clamped — in EVERY channel c < channels,
the alpha channel included (alpha is convolved, not passed through). -/
theorem c3_amended (s : Stage) (hs : s = Stage.blur ∨ s = Stage.sharpen)
    (input out : ℕ → ℕ) (w h ch n x y c : ℕ) (hn : 1 ≤ n) (hc : c < ch)
    (hx1 : 1 ≤ x) (hx2 : x + 1 < w) (hy1 : 1 ≤ y) (hy2 : y + 1 < h) :
    runStageO s input out w h ch (pixIdx w ch x y c) =
      clampTrunc (convSum input w ch x y c (convKernel s)) (convDen s) ∧
    runStageT s n input out w h ch (pixIdx w ch x y c) =
      clampTrunc (convSum input w ch x y c (convKernel s)) (convDen s) :=
  conv_interior_both s hs input out w h ch n x y c hn hc hx1 hx2 hy1 hy2

/-- Claim C3, witness: blur at the centre channel-0 sample of the
concrete 3x3 image evaluates to the clamped truncated sum in both
mains. -/
theorem c3_witness :
    runStageO Stage.blur imgC3 (fun _ => 0) 3 3 4 (pixIdx 3 4 1 1 1) = 0 ∧
    runStageT Stage.blur 2 imgC3 (fun _ => 0) 3 3 4 (pixIdx 3 4 1 1 1) = 0 := by
  obtain ⟨h1, h2⟩ :=
    c3_amended Stage.blur (Or.inl rfl) imgC3 (fun _ => 0) 3 3 4 2 1 1 1 (by decide)
      (by decide) (by decide) (by decide) (by decide) (by decide)
  exact ⟨h1.trans (by decide), h2.trans (by decide)⟩

/-- Claim C4, counterexample: the blur stage never writes row 0 — its
samples after the stage still depend on (equal) the previous contents
of the output buffer — so the scheduler call does not return with every
row of [0, height) written. -/
theorem c4_counterexample : ¬rowWritten Stage.blur 1 (fun _ => 9) 3 3 1 0 := by
  intro hw
  exact absurd (hw (fun _ => 7) (fun _ => 13) 0 rfl) (by decide)

/-- Claim C4, amended: the partition assigns every row of [0, height)
to exactly one worker, and the full-image stages do write every
assigned row: after the scheduler call every brightness sample of a row
below height, and every grayscale R/G/B sample of such a row when
channels ≥ 3, equals the stage value and is independent of the previous
output contents.  The convolution-family stages however skip rows 0 and
height-1 (their border policy, claim C10), so those rows are assigned
but not written. -/
theorem c4_amended (n h : ℕ) (hn : 1 ≤ n) :
    (∀ y, y < h → ∃ i, (i < n ∧ inRange n h i y) ∧
      ∀ i2, i2 < n ∧ inRange n h i2 y → i2 = i) ∧
    (∀ input out : ℕ → ℕ, ∀ w ch j, rowOf w ch j < h →
      runStageT Stage.brightness n input out w h ch j =
        stageVal Stage.brightness input w ch j) ∧
    (∀ input out : ℕ → ℕ, ∀ w ch j, rowOf w ch j < h → 3 ≤ ch → j % ch ≤ 2 →
      runStageT Stage.grayscale n input out w h ch j =
        stageVal Stage.grayscale input w ch j) := by
  refine ⟨?_, ?_, ?_⟩
  · intro y hy
    obtain ⟨i, hi, hin⟩ := exists_range n h y hn hy
    exact ⟨i, ⟨hi, hin⟩, fun i2 hh => inRange_unique n h i2 i y hh.1 hi hh.2 hin⟩
  · intro input out w ch j hrow
    exact runStageT_written Stage.brightness n hn input out w h ch j hrow rfl
  · intro input out w ch j hrow hch hc2
    apply runStageT_written Stage.grayscale n hn input out w h ch j hrow
    show decide (3 ≤ ch ∧ (j % ch ≤ 2 ∨ (ch = 4 ∧ j % ch = 3))) = true
    simp only [decide_eq_true_eq]
    exact ⟨hch, Or.inl hc2⟩

/-- Claim C4, witness: with 2 workers on a 1-row image the brightness
sample at index 0 is written (equals the stage value regardless of the
previous output contents). -/
theorem c4_witness :
    runStageT Stage.brightness 2 imgC9 (fun _ => 0) 1 1 4 0 =
      stageVal Stage.brightness imgC9 1 4 0 :=
  (c4_amended 2 1 (by decide)).2.1 imgC9 (fun _ => 0) 1 4 0 (by decide)

/-- Claim C8: on a solid-colour image (every pixel carries the same
colour, sample value depending only on the channel, each at most 255),
Blur and Sharpen act as the identity at every interior pixel, in both
mains: the output sample equals the input sample. -/
theorem c8_solid_identity (color : ℕ → ℕ) (hcolor : ∀ c2, color c2 ≤ 255)
    (s : Stage) (hs : s = Stage.blur ∨ s = Stage.sharpen)
    (out : ℕ → ℕ) (w h ch n x y c : ℕ) (hn : 1 ≤ n) (hc : c < ch)
    (hx1 : 1 ≤ x) (hx2 : x + 1 < w) (hy1 : 1 ≤ y) (hy2 : y + 1 < h) :
    runStageO s (fun j => color (j % ch)) out w h ch (pixIdx w ch x y c) = color c ∧
    runStageT s n (fun j => color (j % ch)) out w h ch (pixIdx w ch x y c) = color c := by
  obtain ⟨hO, hT⟩ := conv_interior_both s hs (fun j => color (j % ch)) out w h ch n
    x y c hn hc hx1 hx2 hy1 hy2
  have hsum : convSum (fun j => color (j % ch)) w ch x y c (convKernel s) =
      ((convDen s : ℕ) : ℤ) * (color c : ℤ) := by
    rcases hs with rfl | rfl
    · rw [show convKernel Stage.blur = blurK from rfl,
        convSum_const color w ch x y c hc blurK]
      rfl
    · rw [show convKernel Stage.sharpen = sharpenK from rfl,
        convSum_const color w ch x y c hc sharpenK]
      rfl
  have hden : 0 < convDen s := by
    rcases hs with rfl | rfl <;> decide
  rw [hO, hT, hsum, clampTrunc_den_mul (color c) (convDen s) (hcolor c) hden]
  exact ⟨rfl, rfl⟩

/-- Claim C8, witness: blur of the solid colour (100, 150, 200) at the
interior pixel (1, 1) returns the input samples in both mains. -/
theorem c8_witness :
    runStageO Stage.blur (fun j => imgRGB (j % 3)) (fun _ => 0) 3 3 3
      (pixIdx 3 3 1 1 2) = imgRGB 2 ∧
    runStageT Stage.blur 2 (fun j => imgRGB (j % 3)) (fun _ => 0) 3 3 3
      (pixIdx 3 3 1 1 2) = imgRGB 2 := by
  obtain ⟨h1, h2⟩ := c8_solid_identity (fun c2 => imgRGB c2)
    (fun c2 => by unfold imgRGB; simp only []; split_ifs <;> omega) Stage.blur
    (Or.inl rfl) (fun _ => 0) 3 3 3 2 1 1 2 (by decide) (by decide) (by decide)
    (by decide) (by decide) (by decide)
  exact ⟨h1, h2⟩

/-- Claim C9, counterexample: the src_openmp brightness loop runs over
every sample including alpha, so on a 1x1 4-channel pixel with alpha
100 it writes alpha 150 instead of passing it through unchanged. -/
theorem c9_counterexample :
    runStageO Stage.brightness imgC9 (fun _ => 0) 1 1 4 (pixIdx 1 4 0 0 3) = 150 ∧
    imgC9 (pixIdx 1 4 0 0 3) = 100 := by
  decide

/-- Claim C9, amended: both mains compute clamp(input + 50, 0, 255) per
sample with the fixed delta 50; the src_threads stage passes the alpha
channel through unchanged when channels = 4, but the src_openmp stage
applies the delta to alpha as well.  In particular 210 becomes 255
(clamped) and 10 becomes 60. -/
theorem c9_amended (input out : ℕ → ℕ) (w h ch n x y c : ℕ) (hn : 1 ≤ n)
    (hx : x < w) (hy : y < h) (hc : c < ch) :
    (runStageO Stage.brightness input out w h ch (pixIdx w ch x y c) =
      (max 0 (min 255 ((input (pixIdx w ch x y c) : ℤ) + 50))).toNat) ∧
    (¬(ch = 4 ∧ c = 3) →
      runStageT Stage.brightness n input out w h ch (pixIdx w ch x y c) =
        (max 0 (min 255 ((input (pixIdx w ch x y c) : ℤ) + 50))).toNat) ∧
    (ch = 4 → c = 3 →
      runStageT Stage.brightness n input out w h ch (pixIdx w ch x y c) =
        input (pixIdx w ch x y c)) := by
  have hlt : pixIdx w ch x y c < w * h * ch := pixIdx_lt_total w h ch x y c hc hx hy
  have hrow : rowOf w ch (pixIdx w ch x y c) < h := by
    rw [rowOf_pixIdx w ch x y c hc hx]
    exact hy
  refine ⟨?_, ?_, ?_⟩
  · show applyBrightnessO input out w h ch 50 (pixIdx w ch x y c) = _
    unfold applyBrightnessO
    rw [if_pos hlt]
  · intro hna
    rw [runStageT_written Stage.brightness n hn input out w h ch _ hrow rfl]
    show (if ch = 4 ∧ pixIdx w ch x y c % ch = 3 then input (pixIdx w ch x y c)
      else (max 0 (min 255 ((input (pixIdx w ch x y c) : ℤ) + 50))).toNat) = _
    rw [pixIdx_mod w ch x y c hc, if_neg hna]
  · intro h4 hc3
    subst h4
    subst hc3
    rw [runStageT_written Stage.brightness n hn input out w h 4 _ hrow rfl]
    show (if (4 : ℕ) = 4 ∧ pixIdx w 4 x y 3 % 4 = 3 then input (pixIdx w 4 x y 3)
      else (max 0 (min 255 ((input (pixIdx w 4 x y 3) : ℤ) + 50))).toNat) = _
    rw [pixIdx_mod w 4 x y 3 hc, if_pos ⟨rfl, rfl⟩]

/-- Claim C9, witness: brightness turns an input sample 210 into 255
(clamped, src_openmp path) and an input sample 10 into 60 (no clamp,
src_threads path). -/
theorem c9_witness :
    runStageO Stage.brightness (fun _ => 210) (fun _ => 0) 1 1 3 (pixIdx 1 3 0 0 0) = 255 ∧
    runStageT Stage.brightness 1 (fun _ => 10) (fun _ => 0) 1 1 3 (pixIdx 1 3 0 0 0) = 60 := by
  have h1 := (c9_amended (fun _ => 210) (fun _ => 0) 1 1 3 1 0 0 0 (by decide)
    (by decide) (by decide) (by decide)).1
  have h2 := (c9_amended (fun _ => 10) (fun _ => 0) 1 1 3 1 0 0 0 (by decide)
    (by decide) (by decide) (by decide)).2.1 (by decide)
  exact ⟨h1.trans (by decide), h2.trans (by decide)⟩

/-- Claim C10: every convolution-family stage (Blur, Sharpen, Sobel
edge) writes only interior pixels; at every sample of the first or last
row or the first or last column the output buffer keeps exactly its
previous contents, identically in both scheduling strategies. -/
theorem c10_border (s : Stage)
    (hs : s = Stage.blur ∨ s = Stage.sharpen ∨ s = Stage.edge)
    (input out : ℕ → ℕ) (w h ch n x y c : ℕ) (hn : 1 ≤ n) (hc : c < ch)
    (hx : x < w) (hy : y < h)
    (hb : x = 0 ∨ x + 1 = w ∨ y = 0 ∨ y + 1 = h) :
    runStageO s input out w h ch (pixIdx w ch x y c) = out (pixIdx w ch x y c) ∧
    runStageT s n input out w h ch (pixIdx w ch x y c) = out (pixIdx w ch x y c) := by
  have hcond : convCond w h ch (pixIdx w ch x y c) = false :=
    convCond_false_border w h ch x y c hc hx hy hb
  have hT : ∀ s2 : Stage, stageCond s2 w h ch = convCond w h ch →
      runStageT s2 n input out w h ch (pixIdx w ch x y c) = out (pixIdx w ch x y c) := by
    intro s2 hsc
    apply runStageT_skipped s2 n hn input out w h ch _
    rw [hsc, hcond]
    simp
  rcases hs with rfl | rfl | rfl
  · refine ⟨?_, hT Stage.blur rfl⟩
    show applyConvolutionO input out w h ch blurK 16 (pixIdx w ch x y c) = _
    unfold applyConvolutionO
    rw [hcond]
    simp
  · refine ⟨?_, hT Stage.sharpen rfl⟩
    show applyConvolutionO input out w h ch sharpenK 1 (pixIdx w ch x y c) = _
    unfold applyConvolutionO
    rw [hcond]
    simp
  · refine ⟨?_, hT Stage.edge rfl⟩
    show applyEdgeO input out w h ch (pixIdx w ch x y c) = _
    unfold applyEdgeO
    rw [hcond]
    simp

/-- Claim C10, witness: blur leaves the first-column sample (0, 1) of a
3x3 image exactly as the output buffer had it (77), in both mains. -/
theorem c10_witness :
    runStageO Stage.blur imgRGB (fun _ => 77) 3 3 3 (pixIdx 3 3 0 1 0) = 77 ∧
    runStageT Stage.blur 2 imgRGB (fun _ => 77) 3 3 3 (pixIdx 3 3 0 1 0) = 77 :=
  c10_border Stage.blur (Or.inl rfl) imgRGB (fun _ => 77) 3 3 3 2 0 1 0 (by decide)
    (by decide) (by decide) (by decide) (by decide)
